
import Mathlib

/-!
Verification of the vcontrold protocol client
(src/vcontrold-client.ts, src/config.ts) against its natural-language
specification.  The client is embedded shallowly: `handleData`,
`sendCommand`, `processNextRequest`, the timeout callback, the socket
close handler and `disconnect` become pure functions on an explicit
`ClientState`; byte strings are `List Char`.
-/

namespace Vcontrold

/-- JavaScript whitespace test used by `String.prototype.trim` (restricted
to the ASCII whitespace characters that can occur here). -/
def isWS (c : Char) : Bool :=
  c = ' ' || c = '\t' || c = '\n' || c = '\r' || c = '\x0b' || c = '\x0c'

/-- Model of JavaScript `s.trim()`: drop whitespace from both ends. -/
def jsTrim (l : List Char) : List Char :=
  ((l.dropWhile isWS).reverse.dropWhile isWS).reverse

/-- Model of JavaScript `s.split("\n")`: the list of newline-separated
segments, in order; always nonempty, and the segments carry no newline. -/
def splitNL : List Char → List (List Char)
  | [] => [[]]
  | c :: rest =>
    if c = '\n' then [] :: splitNL rest
    else
      match splitNL rest with
      | [] => [[c]]
      | l :: ls => (c :: l) :: ls

/-- Inverse of `splitNL`: interleave the segments with newlines. -/
def joinNL : List (List Char) → List Char
  | [] => []
  | [l] => l
  | l :: ls => l ++ '\n' :: joinNL ls

/-- Last element of a segment list, defaulting to the empty segment
(models `lines.pop() || ""`). -/
def lastD : List (List Char) → List Char
  | [] => []
  | [l] => l
  | _ :: ls => lastD ls

/-- Glue the first segment of the second batch onto a leading partial
segment; helper describing how `splitNL` acts on an append. -/
def consHead (pre : List Char) : List (List Char) → List (List Char)
  | [] => [pre]
  | l :: ls => (pre ++ l) :: ls

/-- One caller request, as stored in `requestQueue` / `currentRequest`.
The promise callbacks are replaced by the ghost identifier `id`; the
per-request `timeout` handle is tracked in `ClientState.armed`. -/
structure QueuedRequest where
  id : Nat
  command : List Char
deriving DecidableEq

/-- How a request's promise is settled (the four `resolve` / `reject`
paths of the source). -/
inductive Outcome where
  | success (value : List Char)
  | notConnected
  | commandTimeout
  | connectionClosed
deriving DecidableEq

/-- The mutable fields of `VcontroldClient`, together with ghost
observables: `armed` (pending `setTimeout` handles, with the command text
each callback captured), `writes` (ids whose command bytes were written to
the socket, in order), `resolutions` (settled promises, in order),
`emitted` (unmatched `response` events) and `submitted` (every request
ever passed to `sendCommand`). -/
structure ClientState where
  connected : Bool
  responseBuffer : List Char
  requestQueue : List QueuedRequest
  currentRequest : Option QueuedRequest
  isProcessingQueue : Bool
  armed : List QueuedRequest
  writes : List Nat
  resolutions : List (Nat × Outcome)
  emitted : List (List Char)
  submitted : List QueuedRequest
deriving DecidableEq

def initialState : ClientState :=
  { connected := false, responseBuffer := [], requestQueue := [],
    currentRequest := none, isProcessingQueue := false, armed := [],
    writes := [], resolutions := [], emitted := [], submitted := [] }

/-- `VcontroldClient.processNextRequest`: return if a request is already
in flight or the queue is empty; otherwise shift the queue head into the
in-flight slot and write its command bytes. -/
def processNextRequest (s : ClientState) : ClientState :=
  match s.currentRequest, s.requestQueue with
  | some _, _ => { s with isProcessingQueue := false }
  | none, [] => { s with isProcessingQueue := false }
  | none, q :: rest =>
    { s with isProcessingQueue := true, currentRequest := some q,
             requestQueue := rest, writes := s.writes ++ [q.id] }

/-- `VcontroldClient.sendCommand`: reject immediately when not connected;
otherwise arm the request's timeout, append it to the queue and start
processing when not already doing so. -/
def sendCommand (s : ClientState) (id : Nat) (cmd : List Char) : ClientState :=
  if s.connected = false then
    { s with resolutions := s.resolutions ++ [(id, Outcome.notConnected)],
             submitted := s.submitted ++ [⟨id, cmd⟩] }
  else
    let s1 := { s with armed := s.armed ++ [⟨id, cmd⟩],
                       requestQueue := s.requestQueue ++ [⟨id, cmd⟩],
                       submitted := s.submitted ++ [⟨id, cmd⟩] }
    if s1.isProcessingQueue then s1 else processNextRequest s1

/-- The `setTimeout` callback created in `sendCommand`, firing for the
request with identifier `id` (a no-op unless that timer is still armed).
It clears the in-flight slot when the in-flight command text equals the
captured command text, filters the queue by command text, rejects the
promise with the timeout error and runs `processNextRequest`. -/
def fireTimeout (s : ClientState) (id : Nat) : ClientState :=
  match s.armed.find? (fun q => q.id = id) with
  | none => s
  | some r =>
    let s1 :=
      { s with
        armed := s.armed.filter (fun q => q.id ≠ id),
        currentRequest :=
          match s.currentRequest with
          | some c => if c.command = r.command then none else some c
          | none => none,
        requestQueue := s.requestQueue.filter (fun q => q.command ≠ r.command),
        resolutions := s.resolutions ++ [(id, Outcome.commandTimeout)] }
    processNextRequest s1

/-- The body of the `lines.forEach` in `VcontroldClient.handleData`:
trim the line, skip it when the trimmed text is empty, otherwise either
resolve the in-flight request (clearing its timeout and dispatching the
next request) or emit the text as an unmatched `response` event. -/
def handleLine (s : ClientState) (line : List Char) : ClientState :=
  let t := jsTrim line
  if t = [] then s
  else
    match s.currentRequest with
    | some r =>
      let s1 :=
        { s with
          armed := s.armed.filter (fun q => q.id ≠ r.id),
          resolutions := s.resolutions ++ [(r.id, Outcome.success t)],
          currentRequest := none }
      processNextRequest s1
    | none => { s with emitted := s.emitted ++ [t] }

/-- `VcontroldClient.handleData`: append the chunk to the response
buffer, split on newlines, keep the last (incomplete) segment as the new
buffer and run the line handler on every complete line. -/
def handleData (s : ClientState) (bytes : List Char) : ClientState :=
  let parts := splitNL (s.responseBuffer ++ bytes)
  parts.dropLast.foldl handleLine { s with responseBuffer := lastD parts }

/-- The socket `connect` handler: mark connected and reset the response
buffer (the reconnect timer is cleared; it is not tracked here). -/
def connectEv (s : ClientState) : ClientState :=
  { s with connected := true, responseBuffer := [] }

/-- The socket `close` handler: mark disconnected and schedule a
reconnect.  It does not touch the queue, the in-flight slot or any
timeout. -/
def closeEv (s : ClientState) : ClientState :=
  { s with connected := false }

/-- The body of the `requestQueue.forEach` in `disconnect`: clear one
request's timeout and reject its promise with the connection-closed
error. -/
def rejectClosed (t : ClientState) (r : QueuedRequest) : ClientState :=
  { t with armed := t.armed.filter (fun q => q.id ≠ r.id),
           resolutions := t.resolutions ++ [(r.id, Outcome.connectionClosed)] }

/-- `VcontroldClient.disconnect`: clear the in-flight request and every
queued request (in FIFO order), rejecting each with the connection-closed
error and clearing its timeout; then empty the queue, stop processing and
mark disconnected. -/
def disconnect (s : ClientState) : ClientState :=
  let s1 :=
    match s.currentRequest with
    | some r =>
      { s with armed := s.armed.filter (fun q => q.id ≠ r.id),
               resolutions := s.resolutions ++ [(r.id, Outcome.connectionClosed)],
               currentRequest := none }
    | none => s
  let s2 := s.requestQueue.foldl rejectClosed s1
  { s2 with requestQueue := [], isProcessingQueue := false, connected := false }

/-- The external events the client reacts to. -/
inductive Event where
  | connect
  | send (id : Nat) (cmd : List Char)
  | data (bytes : List Char)
  | timeout (id : Nat)
  | close
  | shutdown
deriving DecidableEq

def step (s : ClientState) : Event → ClientState
  | Event.connect => connectEv s
  | Event.send id cmd => sendCommand s id cmd
  | Event.data bytes => handleData s bytes
  | Event.timeout id => fireTimeout s id
  | Event.close => closeEv s
  | Event.shutdown => disconnect s

def run (s : ClientState) (es : List Event) : ClientState :=
  es.foldl step s

/-- Ids of the requests currently waiting in the queue or in flight. -/
def pend (s : ClientState) : List QueuedRequest :=
  s.currentRequest.toList ++ s.requestQueue

def resIds (s : ClientState) : List Nat :=
  s.resolutions.map Prod.fst

/-! ### A framer following the specification's words

The spec (§4.2) describes frames as delimited by a fixed sentinel prompt
string, not by newlines.  The definitions below follow the spec's words
and exist only to be compared with the source's `handleData`. -/

/-- The sentinel prompt string of the wire protocol (spec §8 scenarios). -/
def specSentinel : List Char := "vctrld>".data

/-- Whether `pat` occurs at the start of `l`. -/
def startsWith : List Char → List Char → Bool
  | [], _ => true
  | _ :: _, [] => false
  | p :: ps, c :: cs => p = c && startsWith ps cs

/-- Split `l` at the first occurrence of the sentinel: the text before it
and the text after it, or `none` when the sentinel does not occur. -/
def splitSentinel : List Char → Option (List Char × List Char)
  | [] => none
  | c :: rest =>
    if startsWith specSentinel (c :: rest) then
      some ([], (c :: rest).drop specSentinel.length)
    else
      match splitSentinel rest with
      | none => none
      | some (pre, post) => some (c :: pre, post)

/-- Following the spec's words (§4.2): repeatedly scan for the sentinel
delimiter; while present, extract everything before it (trimmed) as one
complete frame, consume the delimiter and keep the remainder as the new
buffer.  Fuel-based recursion; each extraction consumes at least the
sentinel, so `l.length` fuel always suffices. -/
def specFramesFuel : Nat → List Char → List (List Char) × List Char
  | 0, l => ([], l)
  | fuel + 1, l =>
    match splitSentinel l with
    | none => ([], l)
    | some (pre, post) =>
      let r := specFramesFuel fuel post
      (jsTrim pre :: r.1, r.2)

/-- Feed a byte sequence to the spec's sentinel framer from an empty
buffer: the delimited frames and the retained buffer. -/
def specFeed (l : List Char) : List (List Char) × List Char :=
  specFramesFuel l.length l

/-! ### Configuration model (src/config.ts) -/

/-- `getEnvOrDefault`: `process.env[key] || defaultValue` — the default
is also used when the variable is set to the empty string. -/
def getEnvOrDefault (value : Option String) (defaultValue : String) : String :=
  match value with
  | some v => if v = "" then defaultValue else v
  | none => defaultValue

/-- `config.vcontrold.commandTimeout` before parsing: the value of
`VCONTROLD_COMMAND_TIMEOUT` with default `"25000"` (config.ts). -/
def commandTimeoutSetting (env : Option String) : String :=
  getEnvOrDefault env "25000"

/-- `parseInt(x, 10)` restricted to plain decimal digit strings. -/
def parseDecimal (s : String) : Nat :=
  s.data.foldl (fun n c => n * 10 + (c.toNat - 48)) 0

/-- The literal delay passed to `setTimeout` in `sendCommand`
(vcontrold-client.ts line 138). -/
def sendCommandDelayMs : Nat := 5000

/-! ### Reachability under fresh ids and pairwise distinct command texts -/

/-- Event admissibility: a submitted request carries an identifier and a
command text not used by any earlier submission (command texts matter
because the timeout callback identifies requests by command text). -/
def OKd : Event → ClientState → Prop
  | Event.send id cmd, s => ∀ r ∈ s.submitted, r.id ≠ id ∧ r.command ≠ cmd
  | _, _ => True

instance (e : Event) (s : ClientState) : Decidable (OKd e s) := by
  cases e <;> simp only [OKd] <;> infer_instance

/-- States reachable from the initial state by admissible events. -/
inductive ReachD : ClientState → Prop where
  | init : ReachD initialState
  | next (s : ClientState) (e : Event) : ReachD s → OKd e s → ReachD (step s e)

/-- Dispatcher invariant, part one: the components that hold even at the
intermediate states inside an operation (before the trailing
`processNextRequest` call). -/
structure Inv0 (s : ClientState) : Prop where
  armed_eq : s.armed = pend s
  pend_sub : ∀ r ∈ pend s, r ∈ s.submitted
  res_sub : ∀ i ∈ resIds s, i ∈ s.submitted.map QueuedRequest.id
  writes_sub : ∀ i ∈ s.writes, i ∈ s.submitted.map QueuedRequest.id
  pend_nodup : ((pend s).map QueuedRequest.id).Nodup
  subm_ids : (s.submitted.map QueuedRequest.id).Nodup
  subm_cmds : (s.submitted.map QueuedRequest.command).Nodup
  pend_res : ∀ i ∈ (pend s).map QueuedRequest.id, i ∉ resIds s
  cover : ∀ r ∈ s.submitted, r.id ∈ (pend s).map QueuedRequest.id ∨ r.id ∈ resIds s
  written : ∀ i ∈ s.writes, i ∉ resIds s → s.currentRequest.map QueuedRequest.id = some i
  cur_written : ∀ r, s.currentRequest = some r → r.id ∈ s.writes
  writes_queue : ∀ i ∈ s.writes, i ∉ s.requestQueue.map QueuedRequest.id

/-- Full dispatcher invariant. -/
structure Inv (s : ClientState) extends Inv0 s : Prop where
  none_empty : s.currentRequest = none → s.requestQueue = []
  proc_some : s.isProcessingQueue = true → s.currentRequest ≠ none

/-! ### Concrete states used by witnesses -/

/-- A connected state with one in-flight request, used as witness input. -/
def flying (r : QueuedRequest) : ClientState :=
  { initialState with
      connected := true, currentRequest := some r,
      armed := [r], writes := [r.id], isProcessingQueue := true,
      submitted := [r] }

/-- Connect, submit two requests, then lose the connection. -/
def c2trace : List Event :=
  [Event.connect, Event.send 1 ("getTempA".data),
   Event.send 2 ("getTempWW".data), Event.close]

/-- A trace whose timers fire in arming order (all delays are the same
5000 ms literal): three same-command submissions, the in-flight one times
out (silently unqueueing the equal-command requests 2 and 3), a fourth
same-command submission is dispatched, then the still-armed timer of
request 2 fires and clears the in-flight slot of request 4, so a fifth
submission is written while request 4 is written but unresolved. -/
def c3trace : List Event :=
  [Event.connect, Event.send 1 ("getX".data), Event.send 2 ("getX".data),
   Event.send 3 ("getX".data), Event.timeout 1, Event.send 4 ("getX".data),
   Event.timeout 2, Event.send 5 ("getY".data)]

/-- Connect, submit, then receive an error-sentinel reply line. -/
def c4trace : List Event :=
  [Event.connect, Event.send 1 ("getFoo".data),
   Event.data ("ERR: unknown command\n".data)]

/-- Connect and submit one request, with no inbound data at all. -/
def c5trace : List Event :=
  [Event.connect, Event.send 1 ("getTempA".data)]

/-- Connect, submit two requests with the same command text, then fire
the in-flight request's own timeout — the earliest-armed timer, so this
is exactly the schedule the uniform 5000 ms delay produces. -/
def c7trace : List Event :=
  [Event.connect, Event.send 1 ("getX".data), Event.send 2 ("getX".data),
   Event.timeout 1]

/-- A connected state with an in-flight request and two distinct queued
requests, used as witness input. -/
def flyingQueued : ClientState :=
  { initialState with
      connected := true,
      currentRequest := some ⟨1, "getX".data⟩,
      requestQueue := [⟨2, "getY".data⟩, ⟨3, "getZ".data⟩],
      armed := [⟨1, "getX".data⟩, ⟨2, "getY".data⟩, ⟨3, "getZ".data⟩],
      writes := [1], isProcessingQueue := true,
      submitted := [⟨1, "getX".data⟩, ⟨2, "getY".data⟩, ⟨3, "getZ".data⟩] }

/-! ## Theorems -/

theorem splitNL_ne_nil (l : List Char) : splitNL l ≠ [] := by
  cases l with
  | nil => simp [splitNL]
  | cons c rest =>
    simp only [splitNL]
    split
    · simp
    · split <;> simp

theorem mem_splitNL_no_newline (l : List Char) :
    ∀ p ∈ splitNL l, '\n' ∉ p := by
  induction l with
  | nil => intro p hp; simp [splitNL] at hp; simp [hp]
  | cons c rest ih =>
    intro p hp
    simp only [splitNL] at hp
    by_cases hc : c = '\n'
    · simp [hc] at hp
      rcases hp with h | h
      · simp [h]
      · exact ih p h
    · simp [hc] at hp
      rcases hsr : splitNL rest with - | ⟨m, ms⟩
      · exact absurd hsr (splitNL_ne_nil rest)
      · rw [hsr] at hp
        simp at hp
        rcases hp with h | h
        · subst h
          intro hmem
          simp at hmem
          rcases hmem with h | h
          · exact hc h.symm
          · have := ih m (by rw [hsr]; simp)
            exact this h
        · exact ih p (by rw [hsr]; simp [h])

theorem joinNL_cons_cons (c : Char) (m : List Char) (ms : List (List Char)) :
    joinNL ((c :: m) :: ms) = c :: joinNL (m :: ms) := by
  cases ms <;> simp [joinNL]

theorem joinNL_splitNL (l : List Char) : joinNL (splitNL l) = l := by
  induction l with
  | nil => simp [splitNL, joinNL]
  | cons c rest ih =>
    simp only [splitNL]
    by_cases hc : c = '\n'
    · simp only [hc, if_pos rfl]
      rcases hsr : splitNL rest with - | ⟨m, ms⟩
      · exact absurd hsr (splitNL_ne_nil rest)
      · rw [hsr] at ih
        simp [joinNL, ih]
    · simp only [hc, if_neg, ite_false]
      rcases hsr : splitNL rest with - | ⟨m, ms⟩
      · exact absurd hsr (splitNL_ne_nil rest)
      · rw [hsr] at ih
        rw [joinNL_cons_cons, ih]

theorem splitNL_cons_nl (t : List Char) : splitNL ('\n' :: t) = [] :: splitNL t := by
  simp [splitNL]

theorem splitNL_cons_ne (c : Char) (t : List Char) (hc : ¬c = '\n')
    (m : List Char) (ms : List (List Char)) (h : splitNL t = m :: ms) :
    splitNL (c :: t) = (c :: m) :: ms := by
  simp [splitNL, hc, h]

theorem splitNL_append (x y : List Char) :
    splitNL (x ++ y) =
      (splitNL x).dropLast ++ consHead (lastD (splitNL x)) (splitNL y) := by
  induction x with
  | nil =>
    rcases hsy : splitNL y with - | ⟨m, ms⟩
    · exact absurd hsy (splitNL_ne_nil y)
    · simp [splitNL, lastD, consHead, hsy]
  | cons c rest ih =>
    by_cases hc : c = '\n'
    · subst hc
      rw [List.cons_append, splitNL_cons_nl, splitNL_cons_nl, ih]
      rcases hsr : splitNL rest with - | ⟨m, ms⟩
      · exact absurd hsr (splitNL_ne_nil rest)
      · cases ms <;> simp [List.dropLast, lastD]
    · rcases hsr : splitNL rest with - | ⟨m, ms⟩
      · exact absurd hsr (splitNL_ne_nil rest)
      rw [hsr] at ih
      cases ms with
      | nil =>
        rcases hsy : splitNL y with - | ⟨h2, t2⟩
        · exact absurd hsy (splitNL_ne_nil y)
        have hr : splitNL (rest ++ y) = (m ++ h2) :: t2 := by
          rw [ih, hsy]; simp [List.dropLast, lastD, consHead]
        have l1 : splitNL (c :: (rest ++ y)) = (c :: (m ++ h2)) :: t2 :=
          splitNL_cons_ne c _ hc _ _ hr
        have l2 : splitNL (c :: rest) = [c :: m] :=
          splitNL_cons_ne c _ hc _ _ hsr
        rw [List.cons_append, l1, l2]
        simp [List.dropLast, lastD, consHead]
      | cons m2 ms2 =>
        have hr : splitNL (rest ++ y) =
            m :: ((m2 :: ms2).dropLast ++
              consHead (lastD (m2 :: ms2)) (splitNL y)) := by
          rw [ih]; simp [List.dropLast, lastD]
        have l1 : splitNL (c :: (rest ++ y)) =
            (c :: m) :: ((m2 :: ms2).dropLast ++
              consHead (lastD (m2 :: ms2)) (splitNL y)) :=
          splitNL_cons_ne c _ hc _ _ hr
        have l2 : splitNL (c :: rest) = (c :: m) :: m2 :: ms2 :=
          splitNL_cons_ne c _ hc _ _ hsr
        rw [List.cons_append, l1, l2]
        simp [List.dropLast, lastD]

theorem splitNL_eq_single (l : List Char) (h : '\n' ∉ l) :
    splitNL l = [l] := by
  induction l with
  | nil => simp [splitNL]
  | cons c rest ih =>
    simp only [List.mem_cons, not_or] at h
    exact splitNL_cons_ne c rest (fun hh => h.1 hh.symm) rest [] (ih h.2)

/-! ### Field-preservation helpers -/

theorem processNextRequest_resolutions (t : ClientState) :
    (processNextRequest t).resolutions = t.resolutions := by
  rcases t with ⟨conn, buf, rq, cur, proc, armed, w, res, em, sub⟩
  cases cur <;> cases rq <;> rfl

theorem processNextRequest_responseBuffer (t : ClientState) :
    (processNextRequest t).responseBuffer = t.responseBuffer := by
  rcases t with ⟨conn, buf, rq, cur, proc, armed, w, res, em, sub⟩
  cases cur <;> cases rq <;> rfl

theorem processNextRequest_emitted (t : ClientState) :
    (processNextRequest t).emitted = t.emitted := by
  rcases t with ⟨conn, buf, rq, cur, proc, armed, w, res, em, sub⟩
  cases cur <;> cases rq <;> rfl

theorem processNextRequest_armed (t : ClientState) :
    (processNextRequest t).armed = t.armed := by
  rcases t with ⟨conn, buf, rq, cur, proc, armed, w, res, em, sub⟩
  cases cur <;> cases rq <;> rfl

theorem processNextRequest_connected (t : ClientState) :
    (processNextRequest t).connected = t.connected := by
  rcases t with ⟨conn, buf, rq, cur, proc, armed, w, res, em, sub⟩
  cases cur <;> cases rq <;> rfl

theorem processNextRequest_submitted (t : ClientState) :
    (processNextRequest t).submitted = t.submitted := by
  rcases t with ⟨conn, buf, rq, cur, proc, armed, w, res, em, sub⟩
  cases cur <;> cases rq <;> rfl

theorem processNextRequest_setBuf (t : ClientState) (B : List Char) :
    processNextRequest { t with responseBuffer := B }
      = { processNextRequest t with responseBuffer := B } := by
  rcases t with ⟨conn, buf, rq, cur, proc, armed, w, res, em, sub⟩
  cases cur <;> cases rq <;> rfl

theorem handleLine_setBuf (t : ClientState) (B line : List Char) :
    handleLine { t with responseBuffer := B } line
      = { handleLine t line with responseBuffer := B } := by
  rcases t with ⟨conn, buf, rq, cur, proc, armed, w, res, em, sub⟩
  by_cases ht : jsTrim line = []
  · simp [handleLine, ht]
  · cases cur with
    | none => simp [handleLine, ht]
    | some r => cases rq <;> simp [handleLine, processNextRequest, ht]

theorem handleLine_responseBuffer (t : ClientState) (line : List Char) :
    (handleLine t line).responseBuffer = t.responseBuffer := by
  by_cases ht : jsTrim line = []
  · simp [handleLine, ht]
  · cases hc : t.currentRequest with
    | none => simp [handleLine, ht, hc]
    | some r => simp [handleLine, ht, hc, processNextRequest_responseBuffer]

theorem foldl_handleLine_responseBuffer (ls : List (List Char)) (t : ClientState) :
    (ls.foldl handleLine t).responseBuffer = t.responseBuffer := by
  induction ls generalizing t with
  | nil => rfl
  | cons l ls ih => rw [List.foldl_cons, ih, handleLine_responseBuffer]

theorem foldl_handleLine_setBuf (ls : List (List Char)) (t : ClientState) (B : List Char) :
    ls.foldl handleLine { t with responseBuffer := B }
      = { ls.foldl handleLine t with responseBuffer := B } := by
  induction ls generalizing t with
  | nil => rfl
  | cons l ls ih => rw [List.foldl_cons, handleLine_setBuf, ih, List.foldl_cons]

theorem lastD_mem (l : List (List Char)) (h : l ≠ []) : lastD l ∈ l := by
  induction l with
  | nil => exact absurd rfl h
  | cons a as ih =>
    cases as with
    | nil => simp [lastD]
    | cons b bs =>
      simp only [lastD]
      exact List.mem_cons_of_mem a (ih (by simp))

theorem lastD_append_cons (xs : List (List Char)) (y : List Char)
    (ys : List (List Char)) :
    lastD (xs ++ y :: ys) = lastD (y :: ys) := by
  induction xs with
  | nil => rfl
  | cons a as ih =>
    cases has : as ++ y :: ys with
    | nil => exact absurd has (by simp)
    | cons b bs =>
      rw [List.cons_append, has]
      show lastD (b :: bs) = lastD (y :: ys)
      rw [← has, ih]

/-! ### `handleData` composes over chunk boundaries -/

theorem handleData_buffer (s : ClientState) (bytes : List Char) :
    (handleData s bytes).responseBuffer
      = lastD (splitNL (s.responseBuffer ++ bytes)) := by
  simp [handleData, foldl_handleLine_responseBuffer]

theorem handleData_buffer_no_newline (s : ClientState) (bytes : List Char) :
    '\n' ∉ (handleData s bytes).responseBuffer := by
  rw [handleData_buffer]
  exact mem_splitNL_no_newline _ _
    (lastD_mem _ (splitNL_ne_nil (s.responseBuffer ++ bytes)))

theorem handleData_append (s : ClientState) (a b : List Char) :
    handleData (handleData s a) b = handleData s (a ++ b) := by
  have hPne : splitNL (s.responseBuffer ++ a) ≠ [] := splitNL_ne_nil _
  have hLnn : '\n' ∉ lastD (splitNL (s.responseBuffer ++ a)) :=
    mem_splitNL_no_newline _ _ (lastD_mem _ hPne)
  have hLb : splitNL (lastD (splitNL (s.responseBuffer ++ a)) ++ b)
      = consHead (lastD (splitNL (s.responseBuffer ++ a))) (splitNL b) := by
    rw [splitNL_append _ b, splitNL_eq_single _ hLnn]
    simp [List.dropLast, lastD]
  have hsplit2 : splitNL (s.responseBuffer ++ (a ++ b))
      = (splitNL (s.responseBuffer ++ a)).dropLast
          ++ splitNL (lastD (splitNL (s.responseBuffer ++ a)) ++ b) := by
    rw [← List.append_assoc, splitNL_append (s.responseBuffer ++ a) b, hLb]
  obtain ⟨q, qs, hq⟩ :=
    List.exists_cons_of_ne_nil
      (splitNL_ne_nil (lastD (splitNL (s.responseBuffer ++ a)) ++ b))
  simp only [handleData, foldl_handleLine_responseBuffer]
  rw [hsplit2, hq, List.dropLast_append_cons, lastD_append_cons, ← hq]
  simp only [foldl_handleLine_setBuf, List.foldl_append]

/-- `handleData` applied to the empty chunk is the identity when the
buffer holds no newline (true of every buffer the client ever stores). -/
theorem handleData_nil (s : ClientState) (hbuf : '\n' ∉ s.responseBuffer) :
    handleData s [] = s := by
  rcases s with ⟨conn, buf, rq, cur, proc, armed, w, res, em, sub⟩
  simp only [handleData, List.append_nil]
  rw [splitNL_eq_single _ hbuf]
  rfl

/-- C9 — framing is invariant under arbitrary chunking: feeding the
chunks one at a time produces exactly the state (frames, resolutions,
buffer) that feeding the concatenation in a single call produces. -/
theorem chunking_invariant (s : ClientState) (hbuf : '\n' ∉ s.responseBuffer)
    (chunks : List (List Char)) :
    chunks.foldl handleData s = handleData s chunks.flatten := by
  induction chunks generalizing s with
  | nil => exact (handleData_nil s hbuf).symm
  | cons c rest ih =>
    rw [List.foldl_cons, List.flatten_cons,
      ih (handleData s c) (handleData_buffer_no_newline s c), handleData_append]

theorem chunking_invariant_witness :
    List.foldl handleData initialState
        [("23.4\nmo".data), ("re\n".data), ("vctrld".data)]
      = handleData initialState
          (List.flatten [("23.4\nmo".data), ("re\n".data), ("vctrld".data)]) :=
  chunking_invariant initialState (by decide)
    [("23.4\nmo".data), ("re\n".data), ("vctrld".data)]

/-! ### `processNextRequest` case lemmas -/

theorem processNextRequest_some (t : ClientState) (c : QueuedRequest)
    (h : t.currentRequest = some c) :
    processNextRequest t = { t with isProcessingQueue := false } := by
  rcases t with ⟨conn, buf, rq, cur, proc, armed, w, res, em, sub⟩
  subst h
  rfl

theorem processNextRequest_idle (t : ClientState)
    (hcur : t.currentRequest = none) (hq : t.requestQueue = []) :
    processNextRequest t = { t with isProcessingQueue := false } := by
  rcases t with ⟨conn, buf, rq, cur, proc, armed, w, res, em, sub⟩
  subst hcur
  subst hq
  rfl

theorem processNextRequest_dispatch (t : ClientState) (q : QueuedRequest)
    (rest : List QueuedRequest)
    (hcur : t.currentRequest = none) (hq : t.requestQueue = q :: rest) :
    processNextRequest t
      = { t with isProcessingQueue := true, currentRequest := some q,
                 requestQueue := rest, writes := t.writes ++ [q.id] } := by
  rcases t with ⟨conn, buf, rq, cur, proc, armed, w, res, em, sub⟩
  subst hcur
  subst hq
  rfl

/-! ### C1 — framing is by newlines, not by the sentinel prompt -/

/-- C1 (counterexample): fed the sentinel-terminated reply
`"23.4\nmore\nvctrld>\n"`, the spec's sentinel framer yields the single
frame `"23.4\nmore"` with an embedded newline, but the code's
`handleData` splits at newlines and produces the three frames `"23.4"`,
`"more"`, `"vctrld>"`; the claimed frame is never produced. -/
theorem newline_framing_counterexample :
    (specFeed ("23.4\nmore\nvctrld>\n".data)).1 = [("23.4\nmore".data)] ∧
    (handleData { initialState with connected := true }
        ("23.4\nmore\nvctrld>\n".data)).emitted
      = [("23.4".data), ("more".data), ("vctrld>".data)] ∧
    ("23.4\nmore".data) ∉
      (handleData { initialState with connected := true }
        ("23.4\nmore\nvctrld>\n".data)).emitted := by decide

/-- C1 (amended): `handleData` frames by newlines: the accumulated text
decomposes exactly into the newline-separated segments, no segment (hence
no frame) contains a newline, and the final segment — the text after the
last newline — is retained as the new buffer content. -/
theorem newline_framing (s : ClientState) (bytes : List Char) :
    joinNL (splitNL (s.responseBuffer ++ bytes)) = s.responseBuffer ++ bytes ∧
    (∀ l ∈ splitNL (s.responseBuffer ++ bytes), '\n' ∉ l) ∧
    (handleData s bytes).responseBuffer
      = lastD (splitNL (s.responseBuffer ++ bytes)) :=
  ⟨joinNL_splitNL _, mem_splitNL_no_newline _, handleData_buffer s bytes⟩

/-! ### C2 — what drains the queue: `disconnect()`, not the close event -/

/-- C2 (counterexample): after a socket close with one in-flight and one
queued request, nothing is resolved: the close handler only clears
connectedness, both requests stay pending. -/
theorem close_does_not_drain_counterexample :
    (run initialState c2trace).connected = false ∧
    (run initialState c2trace).resolutions = [] ∧
    (run initialState c2trace).currentRequest = some ⟨1, ("getTempA".data)⟩ ∧
    (run initialState c2trace).requestQueue = [⟨2, ("getTempWW".data)⟩] := by
  decide

theorem filter_ne_filter_notMem (l : List QueuedRequest) (i : Nat)
    (is : List Nat) :
    (l.filter (fun q => q.id ≠ i)).filter (fun q => decide (q.id ∉ is))
      = l.filter (fun q => decide (q.id ∉ i :: is)) := by
  induction l with
  | nil => rfl
  | cons a l ih =>
    by_cases h1 : a.id = i
    · simp [List.filter_cons, h1, ih]
      exact List.filter_congr fun x _ => Bool.and_comm _ _
    · by_cases h2 : a.id ∈ is
      · simp [List.filter_cons, h1, h2, ih]
        exact List.filter_congr fun x _ => Bool.and_comm _ _
      · simp [List.filter_cons, h1, h2, ih]
        exact List.filter_congr fun x _ => Bool.and_comm _ _

theorem foldl_rejectClosed (rs : List QueuedRequest) (t : ClientState) :
    rs.foldl rejectClosed t
      = { t with
            armed := t.armed.filter
              (fun q => decide (q.id ∉ rs.map QueuedRequest.id)),
            resolutions := t.resolutions
              ++ rs.map (fun r => (r.id, Outcome.connectionClosed)) } := by
  induction rs generalizing t with
  | nil =>
    rcases t with ⟨conn, buf, rq, cur, proc, armed, w, res, em, sub⟩
    simp
  | cons r rs ih =>
    rw [List.foldl_cons, ih]
    rcases t with ⟨conn, buf, rq, cur, proc, armed, w, res, em, sub⟩
    simp only [rejectClosed]
    rw [filter_ne_filter_notMem]
    simp

/-- C2 (amended): the drain happens in the caller-initiated `disconnect`
method (the socket close handler never drains, see the counterexample):
`disconnect` rejects the in-flight request first and then every queued
request in FIFO order, all with the connection-closed error, clears their
timeouts, empties the queue and in-flight slot, stops queue processing
and marks the client disconnected. -/
theorem disconnect_drains_fifo (s : ClientState) :
    (disconnect s).resolutions
        = s.resolutions
          ++ (pend s).map (fun r => (r.id, Outcome.connectionClosed)) ∧
      (disconnect s).requestQueue = [] ∧
      (disconnect s).currentRequest = none ∧
      (disconnect s).connected = false ∧
      (disconnect s).isProcessingQueue = false ∧
      (disconnect s).armed
        = s.armed.filter
            (fun q => decide (q.id ∉ (pend s).map QueuedRequest.id)) := by
  rcases s with ⟨conn, buf, rq, cur, proc, armed, w, res, em, sub⟩
  cases cur with
  | none => simp [disconnect, foldl_rejectClosed, pend]
  | some r =>
    simp [disconnect, foldl_rejectClosed, pend, filter_ne_filter_notMem]
    exact List.filter_congr fun x _ => Bool.and_comm _ _

/-! ### C4 — frames resolve as success even with the error sentinel -/

/-- C4 (counterexample): for an in-flight request, the reply frame
`ERR: unknown command` is delivered to the caller as a success value --
the code never inspects the error sentinel, so the request is not
resolved as failed. -/
theorem error_sentinel_counterexample :
    (run initialState c4trace).resolutions
      = [(1, Outcome.success ("ERR: unknown command".data))] := by decide

/-- C4 (amended): every nonblank line resolves the in-flight request as a
success carrying the trimmed line text — including lines beginning with
the protocol's error sentinel, whose text the caller receives as the
success value. -/
theorem frame_resolves_success (s : ClientState) (r : QueuedRequest)
    (line : List Char) (hc : s.currentRequest = some r)
    (ht : jsTrim line ≠ []) :
    (handleLine s line).resolutions
      = s.resolutions ++ [(r.id, Outcome.success (jsTrim line))] := by
  simp [handleLine, hc, ht, processNextRequest_resolutions]

/-- C4 (witness). -/
theorem frame_resolves_success_witness :
    (handleLine (flying ⟨1, ("getFoo".data)⟩) ("ERR: unknown command".data)).resolutions
      = [(1, Outcome.success ("ERR: unknown command".data))] :=
  (frame_resolves_success (flying ⟨1, ("getFoo".data)⟩) ⟨1, ("getFoo".data)⟩
    ("ERR: unknown command".data) (by decide) (by decide)).trans (by decide)

/-! ### C5 — there is no Not-ready state and no greeting consumption -/

/-- C5 (counterexample): immediately after the TCP connect event, with no
frame observed, a submitted command is written to the socket at once; and
the first frame (the greeting prompt) is not consumed silently — it is
delivered to that caller as a success value. -/
theorem no_greeting_counterexample :
    (run initialState c5trace).writes = [1] ∧
    (run initialState c5trace).resolutions = [] ∧
    (run initialState (c5trace ++ [Event.data ("vctrld>\n".data)])).resolutions
      = [(1, Outcome.success ("vctrld>".data))] := by decide

/-- C5 (amended): after TCP connect the dispatcher is immediately ready:
`connected` is set, a submitted request is dispatched (written) at once
with no frame observed, and the first frame is handled like any other —
it resolves the in-flight request when one exists, otherwise it is
emitted as an unmatched response. -/
theorem ready_immediately (id : Nat) (cmd : List Char) :
    (run initialState [Event.connect, Event.send id cmd]).connected = true ∧
    (run initialState [Event.connect, Event.send id cmd]).writes = [id] ∧
    (run initialState [Event.connect, Event.send id cmd]).currentRequest
      = some ⟨id, cmd⟩ ∧
    (step (run initialState [Event.connect, Event.send id cmd])
        (Event.data ("vctrld>\n".data))).resolutions
      = [(id, Outcome.success ("vctrld>".data))] ∧
    (step (run initialState [Event.connect])
        (Event.data ("vctrld>\n".data))).emitted = [("vctrld>".data)] :=
  ⟨rfl, rfl, rfl, rfl, rfl⟩

/-! ### C7 — a timeout removes more than its own request -/

/-- C7 (counterexample): with request 1 in flight and request 2 queued
under the same command text, firing request 1's own timeout — the
earliest-armed timer, so the one the uniform 5000 ms delay fires first —
does not remove exactly that request: the merely-queued request 2 is
also removed from the queue without being resolved (it neither remains
queued nor becomes in-flight nor appears among the resolutions; only its
own timer stays armed). -/
theorem inflight_timeout_unqueues_counterexample :
    (run initialState c7trace).resolutions
        = [(1, Outcome.commandTimeout)] ∧
    (run initialState c7trace).requestQueue = [] ∧
    (run initialState c7trace).currentRequest = none ∧
    (⟨2, ("getX".data)⟩ : QueuedRequest) ∈ (run initialState c7trace).submitted ∧
    2 ∉ resIds (run initialState c7trace) ∧
    (⟨2, ("getX".data)⟩ : QueuedRequest) ∈ (run initialState c7trace).armed := by
  decide

/-- C7 (amended): the callback identifies requests by command text, so
when the in-flight request's timeout fires it also drops every queued
request sharing its command text, unresolved (see the counterexample).
Provided no queued request shares the firing in-flight request's command
text, exactly that request is removed and resolved as failed with the
timeout error: every previously queued request is still pending
afterwards, in order (the head being dispatched normally), no other
timer is cleared, and nothing else is resolved.  A timeout cannot fire
on a merely-queued request while an earlier request is in flight: all
delays are the same hardcoded 5000 ms, so the in-flight (earliest-armed)
timer always fires first and the claim's A-short/B-long premise is
unrealizable in this program. -/
theorem timeout_inflight_exact (s : ClientState) (id : Nat)
    (r : QueuedRequest)
    (hfind : s.armed.find? (fun q => q.id = id) = some r)
    (hcur : s.currentRequest = some r)
    (hq : ∀ q ∈ s.requestQueue, ¬q.command = r.command) :
    (fireTimeout s id).resolutions
        = s.resolutions ++ [(id, Outcome.commandTimeout)] ∧
      pend (fireTimeout s id) = s.requestQueue ∧
      (fireTimeout s id).armed = s.armed.filter (fun q => q.id ≠ id) ∧
      (fireTimeout s id).submitted = s.submitted := by
  have hqf : s.requestQueue.filter (fun q => !decide (q.command = r.command))
      = s.requestQueue :=
    List.filter_eq_self.mpr (fun q hqm => by simp; exact hq q hqm)
  have he : fireTimeout s id = processNextRequest
      { s with armed := s.armed.filter (fun q => q.id ≠ id),
               currentRequest := none,
               requestQueue := s.requestQueue,
               resolutions := s.resolutions
                 ++ [(id, Outcome.commandTimeout)] } := by
    simp [fireTimeout, hfind, hcur, hqf]
  rw [he]
  rcases hrq : s.requestQueue with - | ⟨q, rest⟩
  · rw [processNextRequest_idle _ rfl rfl]
    exact ⟨rfl, by simp [pend], rfl, rfl⟩
  · rw [processNextRequest_dispatch _ q rest rfl rfl]
    exact ⟨rfl, by simp [pend], rfl, rfl⟩

/-- C7 (witness). -/
theorem timeout_inflight_exact_witness :
    (fireTimeout flyingQueued 1).resolutions
        = flyingQueued.resolutions ++ [(1, Outcome.commandTimeout)] ∧
      pend (fireTimeout flyingQueued 1) = flyingQueued.requestQueue ∧
      (fireTimeout flyingQueued 1).armed
        = flyingQueued.armed.filter (fun q => q.id ≠ 1) ∧
      (fireTimeout flyingQueued 1).submitted = flyingQueued.submitted :=
  timeout_inflight_exact flyingQueued 1 ⟨1, ("getX".data)⟩
    (by decide) (by decide) (by decide)

/-! ### C10 — blank segments are dropped -/

/-- C10: a segment between newline delimiters whose trimmed text is empty
is skipped entirely by the line handler: it leaves the state unchanged —
no request is resolved and nothing is emitted. -/
theorem blank_segment_dropped (s : ClientState) (line : List Char)
    (h : jsTrim line = []) : handleLine s line = s := by
  simp [handleLine, h]

/-- C10 (witness). -/
theorem blank_segment_dropped_witness :
    handleLine flyingQueued ("  \t ".data) = flyingQueued :=
  blank_segment_dropped flyingQueued ("  \t ".data) (by decide)

/-! ### C8 — the configured command timeout is ignored -/

/-- C8: the configuration declares the per-command timeout with default
25000 ms (config.ts, README), but `sendCommand` passes the literal 5000
to `setTimeout`, so a request times out after 5000 ms regardless of the
configured value — the code contradicts its own configuration. -/
theorem command_timeout_ignores_config :
    parseDecimal (commandTimeoutSetting none) = 25000 ∧
    sendCommandDelayMs = 5000 ∧
    sendCommandDelayMs ≠ parseDecimal (commandTimeoutSetting none) := by
  decide

/-! ### C6 — FIFO delivery of responses -/

theorem sendCommand_fifo (t : ClientState) (id : Nat) (cmd : List Char)
    (hconn : t.connected = true)
    (h10 : t.currentRequest = none → t.requestQueue = [])
    (h11 : t.isProcessingQueue = true → t.currentRequest ≠ none) :
    (sendCommand t id cmd).resolutions = t.resolutions ∧
    (pend (sendCommand t id cmd)).map QueuedRequest.id
      = (pend t).map QueuedRequest.id ++ [id] ∧
    (sendCommand t id cmd).connected = true ∧
    ((sendCommand t id cmd).currentRequest = none
      → (sendCommand t id cmd).requestQueue = []) ∧
    ((sendCommand t id cmd).isProcessingQueue = true
      → (sendCommand t id cmd).currentRequest ≠ none) := by
  have hnc : ¬t.connected = false := by rw [hconn]; exact Bool.noConfusion
  cases hproc : t.isProcessingQueue with
  | true =>
    have hcur := h11 hproc
    have he : sendCommand t id cmd
        = { t with armed := t.armed ++ [⟨id, cmd⟩],
                   requestQueue := t.requestQueue ++ [⟨id, cmd⟩],
                   submitted := t.submitted ++ [⟨id, cmd⟩] } := by
      simp [sendCommand, hnc, hproc]
    rw [he]
    refine ⟨rfl, ?_, hconn, fun h => absurd h hcur, fun _ => hcur⟩
    simp [pend]
  | false =>
    cases hcur : t.currentRequest with
    | some c =>
      have he : sendCommand t id cmd
          = { t with armed := t.armed ++ [⟨id, cmd⟩],
                     requestQueue := t.requestQueue ++ [⟨id, cmd⟩],
                     submitted := t.submitted ++ [⟨id, cmd⟩],
                     isProcessingQueue := false } := by
        simp only [sendCommand, if_neg hnc, hproc, if_neg Bool.false_ne_true]
        exact processNextRequest_some _ c hcur
      rw [he]
      refine ⟨rfl, ?_, hconn, ?_, ?_⟩
      · simp [pend, hcur]
      · intro h
        exact absurd (hcur.symm.trans h) (by simp)
      · intro h
        exact Bool.noConfusion h
    | none =>
      have hqe := h10 hcur
      have hq1 : t.requestQueue ++ [(⟨id, cmd⟩ : QueuedRequest)]
          = [⟨id, cmd⟩] := by rw [hqe]; rfl
      have he : sendCommand t id cmd
          = { t with armed := t.armed ++ [⟨id, cmd⟩],
                     requestQueue := [],
                     submitted := t.submitted ++ [⟨id, cmd⟩],
                     currentRequest := some ⟨id, cmd⟩,
                     isProcessingQueue := true,
                     writes := t.writes ++ [id] } := by
        simp only [sendCommand, if_neg hnc, hproc, if_neg Bool.false_ne_true]
        exact processNextRequest_dispatch _ ⟨id, cmd⟩ [] hcur hq1
      rw [he]
      refine ⟨rfl, ?_, hconn, fun h => absurd h (by simp), fun _ => by simp⟩
      simp [pend, hcur, hqe]

theorem sends_fifo (cmds : List (Nat × List Char)) (t : ClientState)
    (hconn : t.connected = true)
    (h10 : t.currentRequest = none → t.requestQueue = [])
    (h11 : t.isProcessingQueue = true → t.currentRequest ≠ none) :
    ((cmds.map (fun p => Event.send p.1 p.2)).foldl step t).resolutions
        = t.resolutions ∧
    (pend ((cmds.map (fun p => Event.send p.1 p.2)).foldl step t)).map
        QueuedRequest.id
      = (pend t).map QueuedRequest.id ++ cmds.map Prod.fst ∧
    ((cmds.map (fun p => Event.send p.1 p.2)).foldl step t).connected = true ∧
    (((cmds.map (fun p => Event.send p.1 p.2)).foldl step t).currentRequest
        = none
      → ((cmds.map (fun p => Event.send p.1 p.2)).foldl step t).requestQueue
        = []) ∧
    (((cmds.map (fun p => Event.send p.1 p.2)).foldl step t).isProcessingQueue
        = true
      → ((cmds.map (fun p => Event.send p.1 p.2)).foldl step t).currentRequest
        ≠ none) := by
  induction cmds generalizing t with
  | nil => exact ⟨rfl, by simp, hconn, h10, h11⟩
  | cons p cmds ih =>
    obtain ⟨e1, e2, e3, e4, e5⟩ := sendCommand_fifo t p.1 p.2 hconn h10 h11
    obtain ⟨f1, f2, f3, f4, f5⟩ := ih (sendCommand t p.1 p.2) e3 e4 e5
    refine ⟨?_, ?_, f3, f4, f5⟩
    · simpa [step] using f1.trans e1
    · rw [List.map_cons, List.foldl_cons]
      show (pend ((cmds.map (fun p => Event.send p.1 p.2)).foldl step
          (sendCommand t p.1 p.2))).map QueuedRequest.id = _
      rw [f2, e2]
      simp

theorem handleLine_fifo (t : ClientState) (line : List Char)
    (h10 : t.currentRequest = none → t.requestQueue = []) :
    (handleLine t line).resolutions.map Prod.fst
        ++ (pend (handleLine t line)).map QueuedRequest.id
      = t.resolutions.map Prod.fst ++ (pend t).map QueuedRequest.id ∧
    (∀ p ∈ (handleLine t line).resolutions,
        p ∈ t.resolutions ∨ ∃ v, p.2 = Outcome.success v) ∧
    ((handleLine t line).currentRequest = none
      → (handleLine t line).requestQueue = []) := by
  by_cases ht : jsTrim line = []
  · rw [show handleLine t line = t from by simp [handleLine, ht]]
    exact ⟨rfl, fun p hp => Or.inl hp, h10⟩
  · cases hc : t.currentRequest with
    | none =>
      have he : handleLine t line
          = { t with emitted := t.emitted ++ [jsTrim line] } := by
        simp [handleLine, ht, hc]
      rw [he]
      exact ⟨rfl, fun p hp => Or.inl hp, fun _ => h10 hc⟩
    | some r =>
      cases hq : t.requestQueue with
      | nil =>
        have he : handleLine t line
            = { t with armed := t.armed.filter (fun q => q.id ≠ r.id),
                       resolutions := t.resolutions
                         ++ [(r.id, Outcome.success (jsTrim line))],
                       currentRequest := none,
                       isProcessingQueue := false } := by
          simp only [handleLine, hc, ht, if_neg, ite_false]
          exact processNextRequest_idle _ rfl hq
        rw [he]
        refine ⟨?_, ?_, fun _ => hq⟩
        · simp [pend, hc, hq]
        · intro p hp
          rcases List.mem_append.mp hp with h | h
          · exact Or.inl h
          · simp at h
            exact Or.inr ⟨jsTrim line, by rw [h]⟩
      | cons q rest =>
        have hq1 : ({ t with
            armed := t.armed.filter (fun x => x.id ≠ r.id),
            resolutions := t.resolutions
              ++ [(r.id, Outcome.success (jsTrim line))],
            currentRequest := none } : ClientState).requestQueue
            = q :: rest := hq
        have he : handleLine t line
            = { t with armed := t.armed.filter (fun x => x.id ≠ r.id),
                       resolutions := t.resolutions
                         ++ [(r.id, Outcome.success (jsTrim line))],
                       currentRequest := some q,
                       requestQueue := rest,
                       isProcessingQueue := true,
                       writes := t.writes ++ [q.id] } := by
          simp only [handleLine, hc, ht, if_neg, ite_false]
          exact processNextRequest_dispatch _ q rest rfl hq1
        rw [he]
        refine ⟨?_, ?_, fun h => absurd h (by simp)⟩
        · simp [pend, hc, hq]
        · intro p hp
          rcases List.mem_append.mp hp with h | h
          · exact Or.inl h
          · simp at h
            exact Or.inr ⟨jsTrim line, by rw [h]⟩

theorem foldl_handleLine_fifo (ls : List (List Char)) (t : ClientState)
    (h10 : t.currentRequest = none → t.requestQueue = []) :
    (ls.foldl handleLine t).resolutions.map Prod.fst
        ++ (pend (ls.foldl handleLine t)).map QueuedRequest.id
      = t.resolutions.map Prod.fst ++ (pend t).map QueuedRequest.id ∧
    (∀ p ∈ (ls.foldl handleLine t).resolutions,
        p ∈ t.resolutions ∨ ∃ v, p.2 = Outcome.success v) ∧
    ((ls.foldl handleLine t).currentRequest = none
      → (ls.foldl handleLine t).requestQueue = []) := by
  induction ls generalizing t with
  | nil => exact ⟨rfl, fun p hp => Or.inl hp, h10⟩
  | cons l ls ih =>
    obtain ⟨e1, e2, e3⟩ := handleLine_fifo t l h10
    obtain ⟨f1, f2, f3⟩ := ih (handleLine t l) e3
    rw [List.foldl_cons]
    refine ⟨f1.trans e1, ?_, f3⟩
    intro p hp
    rcases f2 p hp with h | h
    · exact e2 p h
    · exact Or.inr h

theorem handleData_fifo (t : ClientState) (bytes : List Char)
    (h10 : t.currentRequest = none → t.requestQueue = []) :
    (handleData t bytes).resolutions.map Prod.fst
        ++ (pend (handleData t bytes)).map QueuedRequest.id
      = t.resolutions.map Prod.fst ++ (pend t).map QueuedRequest.id ∧
    (∀ p ∈ (handleData t bytes).resolutions,
        p ∈ t.resolutions ∨ ∃ v, p.2 = Outcome.success v) ∧
    ((handleData t bytes).currentRequest = none
      → (handleData t bytes).requestQueue = []) :=
  foldl_handleLine_fifo
    (splitNL (t.responseBuffer ++ bytes)).dropLast
    { t with responseBuffer := lastD (splitNL (t.responseBuffer ++ bytes)) }
    h10

theorem datas_fifo (chunks : List (List Char)) (t : ClientState)
    (h10 : t.currentRequest = none → t.requestQueue = []) :
    ((chunks.map Event.data).foldl step t).resolutions.map Prod.fst
        ++ (pend ((chunks.map Event.data).foldl step t)).map QueuedRequest.id
      = t.resolutions.map Prod.fst ++ (pend t).map QueuedRequest.id ∧
    (∀ p ∈ ((chunks.map Event.data).foldl step t).resolutions,
        p ∈ t.resolutions ∨ ∃ v, p.2 = Outcome.success v) ∧
    (((chunks.map Event.data).foldl step t).currentRequest = none
      → ((chunks.map Event.data).foldl step t).requestQueue = []) := by
  induction chunks generalizing t with
  | nil => exact ⟨rfl, fun p hp => Or.inl hp, h10⟩
  | cons c chunks ih =>
    obtain ⟨e1, e2, e3⟩ := handleData_fifo t c h10
    obtain ⟨f1, f2, f3⟩ := ih (handleData t c) e3
    rw [List.map_cons, List.foldl_cons]
    refine ⟨?_, ?_, f3⟩
    · exact (f1.trans e1)
    · intro p hp
      rcases f2 p hp with h | h
      · exact e2 p h
      · exact Or.inr h

/-- C6: for every sequence of commands issued while the dispatcher is
connected and idle, and every sequence of inbound data chunks, the
resolved responses are successes delivered to the callers in exactly the
order the commands were issued: the resolution ids followed by the ids
still pending equal the submission ids, so the resolution order is an
initial segment of the submission order, with no reordering. -/
theorem fifo_ordering (cmds : List (Nat × List Char))
    (chunks : List (List Char)) :
    (run initialState
        (Event.connect :: (cmds.map (fun p => Event.send p.1 p.2)
          ++ chunks.map Event.data))).resolutions.map Prod.fst
      ++ (pend (run initialState
          (Event.connect :: (cmds.map (fun p => Event.send p.1 p.2)
            ++ chunks.map Event.data)))).map QueuedRequest.id
      = cmds.map Prod.fst ∧
    ∀ p ∈ (run initialState
        (Event.connect :: (cmds.map (fun p => Event.send p.1 p.2)
          ++ chunks.map Event.data))).resolutions,
      ∃ v, p.2 = Outcome.success v := by
  have hrun : run initialState
      (Event.connect :: (cmds.map (fun p => Event.send p.1 p.2)
        ++ chunks.map Event.data))
      = (chunks.map Event.data).foldl step
          ((cmds.map (fun p => Event.send p.1 p.2)).foldl step
            (connectEv initialState)) := by
    rw [run, List.foldl_cons, List.foldl_append]
    rfl
  obtain ⟨a1, a2, a3, a4, a5⟩ :=
    sends_fifo cmds (connectEv initialState) rfl (fun _ => rfl)
      (fun h => Bool.noConfusion h)
  obtain ⟨b1, b2, b3⟩ :=
    datas_fifo chunks
      ((cmds.map (fun p => Event.send p.1 p.2)).foldl step
        (connectEv initialState)) a4
  rw [hrun]
  constructor
  · rw [b1, a1, a2]
    rfl
  · intro p hp
    rcases b2 p hp with h | h
    · rw [a1] at h
      exact absurd h (by simp [connectEv, initialState])
    · exact h

/-! ### C3 — the dispatcher invariant under distinct command texts -/

theorem mem_pend (s : ClientState) (r : QueuedRequest) :
    r ∈ pend s ↔ s.currentRequest = some r ∨ r ∈ s.requestQueue := by
  simp [pend, Option.mem_toList, Option.mem_def]

/-- Transport `Inv0` across a state equal on every relevant field. -/
theorem Inv0.transport (h : Inv0 t) (u : ClientState)
    (harm : u.armed = t.armed) (hq : u.requestQueue = t.requestQueue)
    (hcur : u.currentRequest = t.currentRequest) (hw : u.writes = t.writes)
    (hres : u.resolutions = t.resolutions)
    (hsub : u.submitted = t.submitted) : Inv0 u := by
  have hpend : pend u = pend t := by rw [pend, pend, hcur, hq]
  have hrids : resIds u = resIds t := by rw [resIds, resIds, hres]
  constructor
  · rw [harm, hpend]; exact h.armed_eq
  · rw [hpend, hsub]; exact h.pend_sub
  · rw [hrids, hsub]; exact h.res_sub
  · rw [hw, hsub]; exact h.writes_sub
  · rw [hpend]; exact h.pend_nodup
  · rw [hsub]; exact h.subm_ids
  · rw [hsub]; exact h.subm_cmds
  · rw [hpend, hrids]; exact h.pend_res
  · rw [hsub, hpend, hrids]; exact h.cover
  · rw [hw, hrids, hcur]; exact h.written
  · rw [hcur, hw]; exact h.cur_written
  · rw [hw, hq]; exact h.writes_queue

/-- Two pending requests with the same id are the same request. -/
theorem Inv0.pend_inj_id (h : Inv0 s) :
    ∀ p ∈ pend s, ∀ q ∈ pend s, p.id = q.id → p = q :=
  fun p hp q hq hpq => List.inj_on_of_nodup_map h.pend_nodup hp hq hpq

/-- Two pending requests with the same command text are the same
request (command texts of submissions are pairwise distinct). -/
theorem Inv0.pend_inj_cmd (h : Inv0 s) :
    ∀ p ∈ pend s, ∀ q ∈ pend s, p.command = q.command → p = q :=
  fun p hp q hq hpq =>
    List.inj_on_of_nodup_map h.subm_cmds
      (h.pend_sub p hp) (h.pend_sub q hq) hpq

theorem inv_processNext (t : ClientState) (h : Inv0 t) :
    Inv (processNextRequest t) := by
  rcases t with ⟨conn, buf, rq, cur, proc, armed, w, res, em, sub⟩
  cases cur with
  | some c =>
    refine ⟨h.transport _ rfl rfl rfl rfl rfl rfl, ?_, ?_⟩
    · intro hn; exact absurd hn (by simp [processNextRequest])
    · intro _ hn; exact absurd hn (by simp [processNextRequest])
  | none =>
    cases rq with
    | nil =>
      refine ⟨h.transport _ rfl rfl rfl rfl rfl rfl, fun _ => rfl, ?_⟩
      intro hp; exact Bool.noConfusion hp
    | cons q rest =>
      have hpend : pend (ClientState.mk conn buf (q :: rest) none proc
          armed w res em sub) = q :: rest := by simp [pend]
      show Inv (ClientState.mk conn buf rest (some q) true armed
        (w ++ [q.id]) res em sub)
      have hq_sub : q ∈ sub := h.pend_sub q (by rw [hpend]; simp)
      refine ⟨⟨?_, ?_, ?_, ?_, ?_, ?_, ?_, ?_, ?_, ?_, ?_, ?_⟩,
        fun hn => absurd hn (by simp), fun _ => by simp⟩
      · exact h.armed_eq.trans (by rw [hpend]; simp [pend])
      · intro r hr
        refine h.pend_sub r ?_
        rw [hpend]
        simpa [pend] using hr
      · exact h.res_sub
      · intro i hi
        rcases List.mem_append.mp hi with hi | hi
        · exact h.writes_sub i hi
        · simp at hi
          subst hi
          exact List.mem_map_of_mem QueuedRequest.id hq_sub
      · have hnd := h.pend_nodup
        rw [hpend] at hnd
        simpa [pend] using hnd
      · exact h.subm_ids
      · exact h.subm_cmds
      · have hpr := h.pend_res
        rw [hpend] at hpr
        intro i hi
        refine hpr i ?_
        simpa [pend] using hi
      · intro r hr
        rcases h.cover r hr with hc | hc
        · rw [hpend] at hc
          exact Or.inl (by simpa [pend] using hc)
        · exact Or.inr hc
      · intro i hi hres
        rcases List.mem_append.mp hi with hi | hi
        · exact absurd (h.written i hi hres) (by simp)
        · simp at hi
          subst hi
          rfl
      · intro r hr
        cases hr
        simp
      · intro i hi
        rcases List.mem_append.mp hi with hi | hi
        · intro hmem
          exact h.writes_queue i hi (by simp [hmem])
        · simp at hi
          subst hi
          have hnd := h.pend_nodup
          rw [hpend] at hnd
          simp at hnd
          intro hmem
          simp at hmem
          obtain ⟨a, ha, haid⟩ := hmem
          exact hnd.1 a ha haid

theorem inv_send (t : ClientState) (id : Nat) (cmd : List Char) (h : Inv t)
    (hid : ∀ r ∈ t.submitted, r.id ≠ id)
    (hcmd : ∀ r ∈ t.submitted, r.command ≠ cmd) :
    Inv (sendCommand t id cmd) := by
  rcases t with ⟨conn, buf, rq, cur, proc, armed, w, res, em, sub⟩
  have hid_not : id ∉ sub.map QueuedRequest.id := by
    intro hmem
    obtain ⟨a, ha, haid⟩ := List.mem_map.mp hmem
    exact hid a ha haid
  have hcmd_not : cmd ∉ sub.map QueuedRequest.command := by
    intro hmem
    obtain ⟨a, ha, hac⟩ := List.mem_map.mp hmem
    exact hcmd a ha hac
  have hsub_ids :
      ((sub ++ [(⟨id, cmd⟩ : QueuedRequest)]).map QueuedRequest.id).Nodup := by
    rw [List.map_append]
    exact List.Nodup.append h.subm_ids (List.nodup_singleton _)
      (fun a ha hb => by simp at hb; subst hb; exact hid_not ha)
  have hsub_cmds :
      ((sub ++ [(⟨id, cmd⟩ : QueuedRequest)]).map
        QueuedRequest.command).Nodup := by
    rw [List.map_append]
    exact List.Nodup.append h.subm_cmds (List.nodup_singleton _)
      (fun a ha hb => by simp at hb; subst hb; exact hcmd_not ha)
  cases conn with
  | false =>
    show Inv (ClientState.mk false buf rq cur proc armed w
      (res ++ [(id, Outcome.notConnected)]) em
      (sub ++ [⟨id, cmd⟩]))
    refine ⟨⟨?_, ?_, ?_, ?_, ?_, ?_, ?_, ?_, ?_, ?_, ?_, ?_⟩,
      h.none_empty, h.proc_some⟩
    · exact h.armed_eq
    · exact fun r hr => List.mem_append_left _ (h.pend_sub r hr)
    · intro i hi
      rw [List.map_append]
      simp only [resIds, List.map_append] at hi
      rcases List.mem_append.mp hi with hi | hi
      · exact List.mem_append_left _ (h.res_sub i hi)
      · simp at hi
        subst hi
        simp
    · intro i hi
      rw [List.map_append]
      exact List.mem_append_left _ (h.writes_sub i hi)
    · exact h.pend_nodup
    · exact hsub_ids
    · exact hsub_cmds
    · intro i hi
      have h1 := h.pend_res i hi
      have h2 : i ≠ id := by
        obtain ⟨a, ha, haid⟩ := List.mem_map.mp hi
        exact fun hii => hid a (h.pend_sub a ha) (haid.trans hii)
      simp only [resIds, List.map_append]
      intro hmem
      rcases List.mem_append.mp hmem with hm | hm
      · exact h1 hm
      · simp at hm
        exact h2 hm
    · intro r hr
      rcases List.mem_append.mp hr with hr | hr
      · rcases h.cover r hr with hc | hc
        · exact Or.inl hc
        · refine Or.inr ?_
          simp only [resIds, List.map_append]
          exact List.mem_append_left _ hc
      · simp at hr
        subst hr
        refine Or.inr ?_
        simp [resIds]
    · intro i hi hres
      refine h.written i hi ?_
      intro hc
      refine hres ?_
      simp only [resIds, List.map_append]
      exact List.mem_append_left _ hc
    · exact h.cur_written
    · exact h.writes_queue
  | true =>
    have hpend1 : pend (ClientState.mk true buf
          (rq ++ [(⟨id, cmd⟩ : QueuedRequest)]) cur proc
          (armed ++ [⟨id, cmd⟩]) w res em (sub ++ [⟨id, cmd⟩]))
        = (cur.toList ++ rq) ++ [⟨id, cmd⟩] := by simp [pend]
    have hid_pend : id ∉ (cur.toList ++ rq).map QueuedRequest.id := by
      intro hmem
      obtain ⟨a, ha, haid⟩ := List.mem_map.mp hmem
      exact hid a (h.pend_sub a ha) haid
    have hs1 : ∀ b : Bool, Inv0 (ClientState.mk true buf
        (rq ++ [(⟨id, cmd⟩ : QueuedRequest)]) cur b
        (armed ++ [⟨id, cmd⟩]) w res em (sub ++ [⟨id, cmd⟩])) := by
      intro b
      have hpb : pend (ClientState.mk true buf
            (rq ++ [(⟨id, cmd⟩ : QueuedRequest)]) cur b
            (armed ++ [⟨id, cmd⟩]) w res em (sub ++ [⟨id, cmd⟩]))
          = (cur.toList ++ rq) ++ [⟨id, cmd⟩] := by simp [pend]
      refine ⟨?_, ?_, ?_, ?_, ?_, ?_, ?_, ?_, ?_, ?_, ?_, ?_⟩
      · have harm : armed = cur.toList ++ rq :=
          h.armed_eq.trans (by simp [pend])
        rw [hpb, harm]
      · intro r hr
        rw [hpb] at hr
        rcases List.mem_append.mp hr with hr | hr
        · exact List.mem_append_left _ (h.pend_sub r hr)
        · exact List.mem_append_right _ hr
      · intro i hi
        rw [List.map_append]
        exact List.mem_append_left _ (h.res_sub i hi)
      · intro i hi
        rw [List.map_append]
        exact List.mem_append_left _ (h.writes_sub i hi)
      · rw [hpb, List.map_append]
        exact List.Nodup.append h.pend_nodup (List.nodup_singleton _)
          (fun a ha hb => by simp at hb; subst hb; exact hid_pend ha)
      · exact hsub_ids
      · exact hsub_cmds
      · intro i hi
        rw [hpb, List.map_append] at hi
        rcases List.mem_append.mp hi with hi | hi
        · exact h.pend_res i hi
        · simp at hi
          subst hi
          intro hmem
          exact hid_not (h.res_sub _ hmem)
      · intro r hr
        rw [hpb, List.map_append]
        rcases List.mem_append.mp hr with hr | hr
        · rcases h.cover r hr with hc | hc
          · exact Or.inl (List.mem_append_left _ hc)
          · exact Or.inr hc
        · simp at hr
          subst hr
          exact Or.inl (List.mem_append_right _ (by simp))
      · exact h.written
      · exact h.cur_written
      · intro i hi
        rw [List.map_append]
        intro hmem
        rcases List.mem_append.mp hmem with hm | hm
        · exact h.writes_queue i hi hm
        · simp at hm
          subst hm
          exact hid_not (h.writes_sub _ hi)
    cases proc with
    | true =>
      show Inv (ClientState.mk true buf
        (rq ++ [(⟨id, cmd⟩ : QueuedRequest)]) cur true
        (armed ++ [⟨id, cmd⟩]) w res em (sub ++ [⟨id, cmd⟩]))
      refine ⟨hs1 true, ?_, ?_⟩
      · intro hn
        exact absurd hn (h.proc_some rfl)
      · intro _
        exact h.proc_some rfl
    | false =>
      show Inv (processNextRequest (ClientState.mk true buf
        (rq ++ [(⟨id, cmd⟩ : QueuedRequest)]) cur false
        (armed ++ [⟨id, cmd⟩]) w res em (sub ++ [⟨id, cmd⟩])))
      exact inv_processNext _ (hs1 false)

theorem inv_handleLine (t : ClientState) (line : List Char) (h : Inv t) :
    Inv (handleLine t line) := by
  rcases t with ⟨conn, buf, rq, cur, proc, armed, w, res, em, sub⟩
  by_cases ht : jsTrim line = []
  · have he : handleLine
        (ClientState.mk conn buf rq cur proc armed w res em sub) line
        = ClientState.mk conn buf rq cur proc armed w res em sub := by
      simp [handleLine, ht]
    rw [he]
    exact h
  · cases cur with
    | none =>
      have he : handleLine
          (ClientState.mk conn buf rq none proc armed w res em sub) line
          = ClientState.mk conn buf rq none proc armed w res
              (em ++ [jsTrim line]) sub := by
        simp [handleLine, ht]
      rw [he]
      exact ⟨h.toInv0.transport _ rfl rfl rfl rfl rfl rfl,
        h.none_empty, h.proc_some⟩
    | some r =>
      have hpend_old : pend (ClientState.mk conn buf rq (some r) proc
          armed w res em sub) = r :: rq := by simp [pend]
      have harm : armed = r :: rq := h.armed_eq.trans hpend_old
      have hnd : ∀ a ∈ rq, a.id ≠ r.id := by
        have hx := h.pend_nodup
        rw [hpend_old] at hx
        simp at hx
        intro a ha heq
        exact hx.1 a ha heq
      have hfil : armed.filter (fun q => q.id ≠ r.id) = rq := by
        rw [harm, List.filter_cons]
        simp only [ne_eq, decide_not]
        simp
        exact fun a ha heq => hnd a ha heq
      have hr_sub : r ∈ sub :=
        h.pend_sub r (by rw [hpend_old]; simp)
      have h0 : Inv0 (ClientState.mk conn buf rq none proc
          (armed.filter (fun q => q.id ≠ r.id)) w
          (res ++ [(r.id, Outcome.success (jsTrim line))]) em sub) := by
      -- the intermediate state before the trailing processNextRequest
        refine ⟨?_, ?_, ?_, ?_, ?_, ?_, ?_, ?_, ?_, ?_, ?_, ?_⟩
        · rw [hfil]
          simp [pend]
        · intro q hq
          simp [pend] at hq
          exact h.pend_sub q (by rw [hpend_old]; exact List.mem_cons_of_mem r hq)
        · intro i hi
          simp only [resIds, List.map_append] at hi
          rcases List.mem_append.mp hi with hi | hi
          · exact h.res_sub i hi
          · simp at hi
            subst hi
            exact List.mem_map_of_mem QueuedRequest.id hr_sub
        · exact h.writes_sub
        · have hx := h.pend_nodup
          rw [hpend_old] at hx
          simp [pend] at hx ⊢
          exact hx.2
        · exact h.subm_ids
        · exact h.subm_cmds
        · intro i hi
          simp [pend] at hi
          obtain ⟨a, ha, haid⟩ := hi
          have h1 : i ∈ ((r :: rq).map QueuedRequest.id) := by
            simp
            exact Or.inr ⟨a, ha, haid⟩
          have h2 := h.pend_res i (by rw [hpend_old]; exact h1)
          have h3 : i ≠ r.id := by
            rw [← haid]
            exact hnd a ha
          simp only [resIds, List.map_append]
          intro hmem
          rcases List.mem_append.mp hmem with hm | hm
          · exact h2 hm
          · simp at hm
            exact h3 hm
        · intro r2 hr2
          rcases h.cover r2 hr2 with hc | hc
          · rw [hpend_old] at hc
            simp at hc
            rcases hc with hc | hc
            · refine Or.inr ?_
              simp [resIds, hc]
            · refine Or.inl ?_
              simp [pend]
              obtain ⟨a, ha, haid⟩ := hc
              exact ⟨a, ha, haid⟩
          · refine Or.inr ?_
            simp only [resIds, List.map_append]
            exact List.mem_append_left _ hc
        · intro i hi hres
          exfalso
          have hw := h.written i hi (fun hm => hres (by
            simp only [resIds, List.map_append]
            exact List.mem_append_left _ hm))
          simp at hw
          refine hres ?_
          simp [resIds, ← hw]
        · intro r2 hr2
          exact absurd hr2 (by simp)
        · exact h.writes_queue
      have he : handleLine
          (ClientState.mk conn buf rq (some r) proc armed w res em sub) line
          = processNextRequest (ClientState.mk conn buf rq none proc
              (armed.filter (fun q => q.id ≠ r.id)) w
              (res ++ [(r.id, Outcome.success (jsTrim line))]) em sub) := by
        simp [handleLine, ht]
      rw [he]
      exact inv_processNext _ h0

theorem foldl_handleLine_inv (ls : List (List Char)) (u : ClientState)
    (h : Inv u) : Inv (ls.foldl handleLine u) := by
  induction ls generalizing u with
  | nil => exact h
  | cons l ls ih => exact ih (handleLine u l) (inv_handleLine u l h)

theorem inv_handleData (t : ClientState) (bytes : List Char) (h : Inv t) :
    Inv (handleData t bytes) := by
  rw [handleData]
  exact foldl_handleLine_inv _ _
    ⟨h.toInv0.transport _ rfl rfl rfl rfl rfl rfl, h.none_empty, h.proc_some⟩

theorem inv_fire (t : ClientState) (id : Nat) (h : Inv t) :
    Inv (fireTimeout t id) := by
  rcases hfind : t.armed.find? (fun q => q.id = id) with - | r
  · have he : fireTimeout t id = t := by simp [fireTimeout, hfind]
    rw [he]
    exact h
  · have hr_arm : r ∈ t.armed := List.mem_of_find?_eq_some hfind
    have hr_id : r.id = id := by
      have hx := List.find?_some hfind
      simpa using hx
    have hr_pend : r ∈ pend t := by rw [← h.armed_eq]; exact hr_arm
    rcases hcur : t.currentRequest with - | c
    · exfalso
      have hq := h.none_empty hcur
      have hp : pend t = [] := by simp [pend, hcur, hq]
      rw [hp] at hr_pend
      exact absurd hr_pend (List.not_mem_nil r)
    · have hiff : ∀ q ∈ pend t, (q.command = r.command ↔ q.id = id) := by
        intro q hq
        constructor
        · intro hcq
          have hqr := h.toInv0.pend_inj_cmd q hq r hr_pend hcq
          rw [hqr, hr_id]
        · intro hqid
          have hqr := h.toInv0.pend_inj_id q hq r hr_pend
            (hqid.trans hr_id.symm)
          rw [hqr]
      have hc_pend : c ∈ pend t := by rw [mem_pend]; exact Or.inl hcur
      have hpend_old : pend t = c :: t.requestQueue := by
        simp [pend, hcur]
      have hq_pend : ∀ q ∈ t.requestQueue, q ∈ pend t := by
        intro q hq
        rw [mem_pend]
        exact Or.inr hq
      have hqf : t.requestQueue.filter (fun q => q.command ≠ r.command)
          = t.requestQueue.filter (fun q => q.id ≠ id) :=
        List.filter_congr (fun q hq =>
          decide_eq_decide.mpr (not_congr (hiff q (hq_pend q hq))))
      have hnd_old : ((pend t).map QueuedRequest.id).Nodup := h.pend_nodup
      have hcq_nd : c.id ∉ t.requestQueue.map QueuedRequest.id := by
        rw [hpend_old] at hnd_old
        simp at hnd_old
        intro hmem
        obtain ⟨a, ha, haid⟩ := List.mem_map.mp hmem
        exact hnd_old.1 a ha haid
      have hqf_sub : ∀ q ∈ t.requestQueue.filter (fun q => q.id ≠ id),
          q ∈ t.requestQueue := fun q hq => List.mem_of_mem_filter hq
      have hqf_nd :
          ((t.requestQueue.filter (fun q => q.id ≠ id)).map
            QueuedRequest.id).Nodup := by
        refine List.Nodup.sublist (List.Sublist.map _ (List.filter_sublist _)) ?_
        rw [hpend_old] at hnd_old
        simp at hnd_old
        exact hnd_old.2
      have hqf_ne : ∀ i ∈ (t.requestQueue.filter
          (fun q => q.id ≠ id)).map QueuedRequest.id, i ≠ id := by
        intro i hi
        obtain ⟨a, ha, haid⟩ := List.mem_map.mp hi
        have := List.of_mem_filter ha
        simp at this
        rw [← haid]
        exact this
      have hqf_mem : ∀ i, i ∈ t.requestQueue.map QueuedRequest.id → i ≠ id
          → i ∈ (t.requestQueue.filter
              (fun q => q.id ≠ id)).map QueuedRequest.id := by
        intro i hi hne
        obtain ⟨a, ha, haid⟩ := List.mem_map.mp hi
        have haf : a ∈ t.requestQueue.filter (fun q => q.id ≠ id) :=
          List.mem_filter.mpr ⟨ha, by simp; rw [haid]; exact hne⟩
        exact List.mem_map.mpr ⟨a, haf, haid⟩
      have hqsub : ∀ i ∈ (t.requestQueue.filter
          (fun q => q.id ≠ id)).map QueuedRequest.id,
          i ∈ t.requestQueue.map QueuedRequest.id := by
        intro i hi
        obtain ⟨a, ha, haid⟩ := List.mem_map.mp hi
        exact List.mem_map.mpr ⟨a, List.mem_of_mem_filter ha, haid⟩
      by_cases hcc : c.command = r.command
      · have hcid : c.id = id := (hiff c hc_pend).mp hcc
        have he : fireTimeout t id = processNextRequest
            { t with
                armed := t.armed.filter (fun q => q.id ≠ id),
                currentRequest := none,
                requestQueue := t.requestQueue.filter
                  (fun q => q.command ≠ r.command),
                resolutions := t.resolutions
                  ++ [(id, Outcome.commandTimeout)] } := by
          simp [fireTimeout, hfind, hcur, hcc]
        rw [he]
        refine inv_processNext _
          ⟨?_, ?_, ?_, ?_, ?_, ?_, ?_, ?_, ?_, ?_, ?_, ?_⟩
        · show t.armed.filter (fun q => q.id ≠ id) = _
          rw [h.armed_eq, hpend_old, hqf]
          simp [pend, List.filter_cons, hcid]
        · intro q hq
          simp only [pend, Option.toList, List.nil_append] at hq
          exact h.pend_sub q (hq_pend q (List.mem_of_mem_filter hq))
        · intro i hi
          simp only [resIds, List.map_append] at hi
          rcases List.mem_append.mp hi with hi | hi
          · exact h.res_sub i hi
          · simp at hi
            subst hi
            rw [← hr_id]
            exact List.mem_map_of_mem _ (h.pend_sub r hr_pend)
        · exact h.writes_sub
        · show ((pend _).map QueuedRequest.id).Nodup
          simp only [pend, Option.toList, List.nil_append]
          rw [hqf]
          exact hqf_nd
        · exact h.subm_ids
        · exact h.subm_cmds
        · intro i hi
          simp only [pend, Option.toList, List.nil_append] at hi
          rw [hqf] at hi
          have hne := hqf_ne i hi
          have hrq := hqsub i hi
          have hold : i ∉ resIds t := by
            refine h.pend_res i ?_
            rw [hpend_old]
            simp
            obtain ⟨a, ha, haid⟩ := List.mem_map.mp hrq
            exact Or.inr ⟨a, ha, haid⟩
          simp only [resIds, List.map_append]
          intro hmem
          rcases List.mem_append.mp hmem with hm | hm
          · exact hold hm
          · simp at hm
            exact hne hm
        · intro r2 hr2
          rcases h.cover r2 hr2 with hc | hc
          · rw [hpend_old] at hc
            simp at hc
            rcases hc with hc | hc
            · refine Or.inr ?_
              simp [resIds]
              right
              rw [hc, hcid]
            · by_cases hri : r2.id = id
              · refine Or.inr ?_
                simp [resIds, hri]
              · refine Or.inl ?_
                simp only [pend, Option.toList, List.nil_append]
                rw [hqf]
                refine hqf_mem r2.id ?_ hri
                obtain ⟨a, ha, haid⟩ := hc
                exact List.mem_map.mpr ⟨a, ha, haid⟩
          · refine Or.inr ?_
            simp only [resIds, List.map_append]
            exact List.mem_append_left _ hc
        · intro i hi hres
          exfalso
          have h1 : i ∉ resIds t := by
            intro hm
            refine hres ?_
            simp only [resIds, List.map_append]
            exact List.mem_append_left _ hm
          have h2 := h.written i hi h1
          rw [hcur] at h2
          simp at h2
          refine hres ?_
          simp [resIds]
          right
          rw [← h2, hcid]
        · intro r2 hr2
          exact absurd hr2 (by simp)
        · intro i hi
          have hw := h.writes_queue i hi
          intro hmem
          obtain ⟨a, ha, haid⟩ := List.mem_map.mp hmem
          exact hw (List.mem_map.mpr ⟨a, List.mem_of_mem_filter ha, haid⟩)
      · have hcid : ¬c.id = id := fun hx => hcc ((hiff c hc_pend).mpr hx)
        have he : fireTimeout t id = processNextRequest
            { t with
                armed := t.armed.filter (fun q => q.id ≠ id),
                currentRequest := some c,
                requestQueue := t.requestQueue.filter
                  (fun q => q.command ≠ r.command),
                resolutions := t.resolutions
                  ++ [(id, Outcome.commandTimeout)] } := by
          simp [fireTimeout, hfind, hcur, hcc]
        rw [he]
        refine inv_processNext _
          ⟨?_, ?_, ?_, ?_, ?_, ?_, ?_, ?_, ?_, ?_, ?_, ?_⟩
        · show t.armed.filter (fun q => q.id ≠ id) = _
          rw [h.armed_eq, hpend_old, hqf]
          simp [pend, List.filter_cons, hcid]
        · intro q hq
          simp only [pend, Option.toList] at hq
          rcases List.mem_append.mp hq with hq | hq
          · simp at hq
            rw [hq]
            exact h.pend_sub c hc_pend
          · exact h.pend_sub q (hq_pend q (List.mem_of_mem_filter hq))
        · intro i hi
          simp only [resIds, List.map_append] at hi
          rcases List.mem_append.mp hi with hi | hi
          · exact h.res_sub i hi
          · simp at hi
            subst hi
            rw [← hr_id]
            exact List.mem_map_of_mem _ (h.pend_sub r hr_pend)
        · exact h.writes_sub
        · show ((pend _).map QueuedRequest.id).Nodup
          simp only [pend, Option.toList]
          rw [hqf, List.map_append]
          simp only [List.map_cons, List.map_nil]
          refine List.Nodup.append (List.nodup_singleton _) hqf_nd ?_
          intro a ha hb
          simp at ha
          rw [ha] at hb
          exact hcq_nd (hqsub _ hb)
        · exact h.subm_ids
        · exact h.subm_cmds
        · intro i hi
          simp only [pend, Option.toList] at hi
          rw [hqf] at hi
          simp at hi
          rcases hi with hm | hm
          · subst hm
            have hold : c.id ∉ resIds t := by
              refine h.pend_res c.id ?_
              rw [hpend_old]
              simp
            simp only [resIds, List.map_append]
            intro hmem
            rcases List.mem_append.mp hmem with hx | hx
            · exact hold hx
            · simp at hx
              exact hcid hx
          · obtain ⟨a, ⟨ha, hane⟩, haid⟩ := hm
            have hne : i ≠ id := by rw [← haid]; exact hane
            have hold : i ∉ resIds t := by
              refine h.pend_res i ?_
              rw [hpend_old]
              simp
              exact Or.inr ⟨a, ha, haid⟩
            simp only [resIds, List.map_append]
            intro hmem
            rcases List.mem_append.mp hmem with hx | hx
            · exact hold hx
            · simp at hx
              exact hne hx
        · intro r2 hr2
          rcases h.cover r2 hr2 with hc | hc
          · rw [hpend_old] at hc
            simp at hc
            rcases hc with hc | hc
            · refine Or.inl ?_
              simp only [pend, Option.toList]
              rw [List.map_append]
              refine List.mem_append_left _ ?_
              simp [hc]
            · by_cases hri : r2.id = id
              · refine Or.inr ?_
                simp [resIds, hri]
              · refine Or.inl ?_
                simp only [pend, Option.toList]
                rw [hqf, List.map_append]
                refine List.mem_append_right _ ?_
                refine hqf_mem r2.id ?_ hri
                obtain ⟨a, ha, haid⟩ := hc
                exact List.mem_map.mpr ⟨a, ha, haid⟩
          · refine Or.inr ?_
            simp only [resIds, List.map_append]
            exact List.mem_append_left _ hc
        · intro i hi hres
          have h1 : i ∉ resIds t := by
            intro hm
            refine hres ?_
            simp only [resIds, List.map_append]
            exact List.mem_append_left _ hm
          have h2 := h.written i hi h1
          rw [hcur] at h2
          simp at h2
          simp [h2]
        · intro r2 hr2
          simp at hr2
          subst hr2
          exact h.cur_written c hcur
        · intro i hi
          have hw := h.writes_queue i hi
          intro hmem
          obtain ⟨a, ha, haid⟩ := List.mem_map.mp hmem
          exact hw (List.mem_map.mpr ⟨a, List.mem_of_mem_filter ha, haid⟩)

theorem inv_disconnect (t : ClientState) (h : Inv t) :
    Inv (disconnect t) := by
  rcases hcur : t.currentRequest with - | r
  · have hqe := h.none_empty hcur
    have he : disconnect t
        = { t with requestQueue := [], isProcessingQueue := false,
                   connected := false } := by
      simp [disconnect, hcur, hqe]
    rw [he]
    exact ⟨h.toInv0.transport _ rfl hqe.symm rfl rfl rfl rfl,
      fun _ => rfl, fun hp => Bool.noConfusion hp⟩
  · have hpend_old : pend t = r :: t.requestQueue := by simp [pend, hcur]
    have harm : t.armed = r :: t.requestQueue := h.armed_eq.trans hpend_old
    have hnd : ∀ a ∈ t.requestQueue, a.id ≠ r.id := by
      have hx := h.pend_nodup
      rw [hpend_old] at hx
      simp at hx
      intro a ha heq
      exact hx.1 a ha heq
    have harm0 : t.armed.filter (fun q => q.id ≠ r.id) = t.requestQueue := by
      rw [harm, List.filter_cons]
      simp
      exact fun a ha heq => hnd a ha heq
    have harm1 : (t.armed.filter (fun q => q.id ≠ r.id)).filter
        (fun q => decide (q.id ∉ t.requestQueue.map QueuedRequest.id))
        = [] := by
      rw [harm0]
      rw [List.filter_eq_nil_iff]
      intro a ha
      simp
      exact ⟨a, ha, rfl⟩
    have he : disconnect t
        = { t with
              armed := (t.armed.filter (fun q => q.id ≠ r.id)).filter
                (fun q => decide (q.id ∉ t.requestQueue.map QueuedRequest.id)),
              resolutions := (t.resolutions
                  ++ [(r.id, Outcome.connectionClosed)])
                ++ t.requestQueue.map
                  (fun q => (q.id, Outcome.connectionClosed)),
              currentRequest := none, requestQueue := [],
              isProcessingQueue := false, connected := false } := by
      simp [disconnect, hcur, foldl_rejectClosed]
    rw [he, harm1]
    refine ⟨⟨?_, ?_, ?_, ?_, ?_, ?_, ?_, ?_, ?_, ?_, ?_, ?_⟩,
      fun _ => rfl, fun hp => Bool.noConfusion hp⟩
    · simp [pend]
    · intro q hq
      simp [pend] at hq
    · intro i hi
      simp only [resIds, List.map_append] at hi
      rcases List.mem_append.mp hi with hi | hi
      · rcases List.mem_append.mp hi with hi | hi
        · exact h.res_sub i hi
        · simp at hi
          rw [hi]
          exact List.mem_map_of_mem _ (h.pend_sub r (by rw [hpend_old]; simp))
      · rw [List.map_map] at hi
        obtain ⟨a, ha, haid⟩ := List.mem_map.mp hi
        have haid2 : a.id = i := haid
        rw [← haid2]
        refine List.mem_map_of_mem _ (h.pend_sub a ?_)
        rw [hpend_old]
        exact List.mem_cons_of_mem r ha
    · exact h.writes_sub
    · simp [pend]
    · exact h.subm_ids
    · exact h.subm_cmds
    · intro i hi
      simp [pend] at hi
    · intro r2 hr2
      refine Or.inr ?_
      rcases h.cover r2 hr2 with hc | hc
      · rw [hpend_old] at hc
        simp at hc
        simp only [resIds, List.map_append]
        rcases hc with hc | hc
        · refine List.mem_append_left _ ?_
          refine List.mem_append_right _ ?_
          simp [hc]
        · refine List.mem_append_right _ ?_
          rw [List.map_map]
          obtain ⟨a, ha, haid⟩ := hc
          exact List.mem_map.mpr ⟨a, ha, haid⟩
      · simp only [resIds, List.map_append]
        exact List.mem_append_left _ (List.mem_append_left _ hc)
    · intro i hi hres
      exfalso
      have h1 : i ∉ resIds t := by
        intro hm
        refine hres ?_
        simp only [resIds, List.map_append]
        exact List.mem_append_left _ (List.mem_append_left _ hm)
      have h2 := h.written i hi h1
      rw [hcur] at h2
      simp at h2
      refine hres ?_
      simp only [resIds, List.map_append]
      refine List.mem_append_left _ ?_
      refine List.mem_append_right _ ?_
      simp [h2]
    · intro r2 hr2
      exact absurd hr2 (by simp)
    · intro i hi
      simp

theorem inv_initial : Inv initialState := by
  refine ⟨⟨rfl, ?_, ?_, ?_, ?_, ?_, ?_, ?_, ?_, ?_, ?_, ?_⟩,
    fun _ => rfl, fun hp => Bool.noConfusion hp⟩ <;>
    simp [initialState, pend, resIds]

theorem inv_step (s : ClientState) (e : Event) (h : Inv s) (hok : OKd e s) :
    Inv (step s e) := by
  cases e with
  | connect =>
    exact ⟨h.toInv0.transport _ rfl rfl rfl rfl rfl rfl,
      h.none_empty, h.proc_some⟩
  | send id cmd =>
    exact inv_send s id cmd h (fun r hr => (hok r hr).1)
      (fun r hr => (hok r hr).2)
  | data bytes => exact inv_handleData s bytes h
  | timeout id => exact inv_fire s id h
  | close =>
    exact ⟨h.toInv0.transport _ rfl rfl rfl rfl rfl rfl,
      h.none_empty, h.proc_some⟩
  | shutdown => exact inv_disconnect s h

theorem reach_inv (s : ClientState) (h : ReachD s) : Inv s := by
  induction h with
  | init => exact inv_initial
  | next s e hr hok ih => exact inv_step s e ih hok

/-- C3 (counterexample): along a trace whose timers fire in arming order
but whose command texts repeat, two requests (4 and 5) are simultaneously
written-and-unresolved — the single-in-flight invariant fails — and
request 3 is in none of the three states: not queued, not in flight, not
resolved. -/
theorem single_inflight_counterexample :
    4 ∈ (run initialState c3trace).writes ∧
    4 ∉ resIds (run initialState c3trace) ∧
    5 ∈ (run initialState c3trace).writes ∧
    5 ∉ resIds (run initialState c3trace) ∧
    ¬(run initialState c3trace).currentRequest.map QueuedRequest.id
      = some 4 ∧
    ((⟨3, ("getX".data)⟩ : QueuedRequest) ∈ (run initialState c3trace).submitted
      ∧ 3 ∉ (run initialState c3trace).requestQueue.map QueuedRequest.id
      ∧ ¬(run initialState c3trace).currentRequest.map QueuedRequest.id
        = some 3
      ∧ 3 ∉ resIds (run initialState c3trace)) := by decide

/-- C3 (amended): provided every submission uses a fresh identifier and a
command text distinct from all earlier submissions (the timeout callback
identifies requests by command text; with duplicated texts the claim is
false — see the counterexample), every reachable state keeps the
single-in-flight invariant: any identifier that has been written to the
socket and is not yet resolved is the current in-flight one (so there is
at most one), and every submitted request is in exactly one of the three
states waiting-in-queue, in-flight, resolved. -/
theorem single_inflight (s : ClientState) (h : ReachD s) :
    (∀ i ∈ s.writes, i ∉ resIds s
      → s.currentRequest.map QueuedRequest.id = some i) ∧
    (∀ r ∈ s.submitted,
      (r.id ∈ s.requestQueue.map QueuedRequest.id
          ∧ ¬s.currentRequest.map QueuedRequest.id = some r.id
          ∧ r.id ∉ resIds s) ∨
      (r.id ∉ s.requestQueue.map QueuedRequest.id
          ∧ s.currentRequest.map QueuedRequest.id = some r.id
          ∧ r.id ∉ resIds s) ∨
      (r.id ∉ s.requestQueue.map QueuedRequest.id
          ∧ ¬s.currentRequest.map QueuedRequest.id = some r.id
          ∧ r.id ∈ resIds s)) := by
  have hinv := reach_inv s h
  refine ⟨hinv.written, ?_⟩
  intro r hr
  have hpend_ids : (pend s).map QueuedRequest.id
      = (s.currentRequest.toList.map QueuedRequest.id)
        ++ s.requestQueue.map QueuedRequest.id := by simp [pend]
  rcases hinv.cover r hr with hc | hc
  · have hres : r.id ∉ resIds s := hinv.pend_res r.id hc
    rw [hpend_ids] at hc
    rcases List.mem_append.mp hc with hm | hm
    · rcases hcur : s.currentRequest with - | c
      · rw [hcur] at hm
        simp at hm
      · rw [hcur] at hm
        simp at hm
        refine Or.inr (Or.inl ⟨?_, ?_, hres⟩)
        · have hnd := hinv.pend_nodup
          rw [hpend_ids, hcur] at hnd
          simp at hnd
          intro hmem
          obtain ⟨a, ha, haid⟩ := List.mem_map.mp hmem
          refine hnd.1 a ha ?_
          rw [haid, hm]
        · simp [hm]
    · have hcurne : ¬s.currentRequest.map QueuedRequest.id = some r.id := by
        intro hcm
        rcases hcur : s.currentRequest with - | c
        · rw [hcur] at hcm
          simp at hcm
        · rw [hcur] at hcm
          simp at hcm
          have hnd := hinv.pend_nodup
          rw [hpend_ids, hcur] at hnd
          simp at hnd
          obtain ⟨a, ha, haid⟩ := List.mem_map.mp hm
          refine hnd.1 a ha ?_
          rw [haid, ← hcm]
      exact Or.inl ⟨hm, hcurne, hres⟩
  · refine Or.inr (Or.inr ⟨?_, ?_, hc⟩)
    · intro hmem
      refine hinv.pend_res r.id ?_ hc
      rw [hpend_ids]
      exact List.mem_append_right _ hmem
    · intro hcm
      refine hinv.pend_res r.id ?_ hc
      rw [hpend_ids]
      refine List.mem_append_left _ ?_
      rcases hcur : s.currentRequest with - | c
      · rw [hcur] at hcm
        simp at hcm
      · rw [hcur] at hcm
        simp at hcm
        simp [hcm]

/-- C3 (witness). -/
theorem single_inflight_witness :
    (run initialState
        [Event.connect, Event.send 1 ("getTempA".data)]).currentRequest.map
      QueuedRequest.id = some 1 :=
  (single_inflight
      (run initialState [Event.connect, Event.send 1 ("getTempA".data)])
      (ReachD.next _ (Event.send 1 ("getTempA".data))
        (ReachD.next _ Event.connect ReachD.init (by decide))
        (by decide))).1
    1 (by decide) (by decide)

end Vcontrold
